import Mathlib

/-!
Verification development for the abbrase word-graph engine (`src/abbrase.c`).

The C data structure `struct IntVec` (a growable array of `int`) is modelled
as `List Int`; encoded follower strings (NUL-terminated C strings of bytes)
are modelled as `List Nat`, the list holding the bytes strictly before the
terminating NUL.  Dictionary words are modelled as `List Char`.
-/

namespace Abbrase

/-- Values emitted by the decoder while `zero_run` counts down: each of the
`k` iterations executes `last_num += 0 + 1` and appends the running total
(`decode`, abbrase.c lines 181-203, the `zero_run` branch). -/
def runZeros : Nat → Int → List Int
  | 0, _ => []
  | k + 1, last => (last + 1) :: runZeros k (last + 1)

/-- The decoder loop of `decode` (abbrase.c lines 162-205), over the bytes of
the encoded string that precede the terminating NUL.  The `Option` state is
`none` between tokens and `some (delta_ind, delta)` while inside the base-32
varint do-while.  Bit operations on a byte `b` are rendered arithmetically:
`b % 32` for `b & 0x1f`, `b / 32 % 2 = 1` for `b & 0x20`, and
`acc + b % 32 * 2 ^ (5 * di)` for `delta |= (val & 0x1f) << (5 * delta_ind)`
(the or-ed chunks always occupy disjoint bit ranges, the accumulator staying
below `2 ^ (5 * delta_ind)`).  A varint whose continuation bit is still set at
the end of the buffer reads the terminating NUL as its final chunk, exactly as
the C do-while does. -/
def decodeGo : List Nat → Option (Nat × Nat) → Int → List Int
  | [], none, _ => []
  | [], some (_, acc), last => [last + (acc : Int) + 1]
  | b :: rest, none, last =>
    if b = 0 then []
    else if 0x60 ≤ b then
      (last + 1) :: (runZeros (b % 32) (last + 1) ++
        decodeGo rest none (last + 1 + (b % 32 : Nat)))
    else if b / 32 % 2 = 1 then decodeGo rest (some (1, b % 32)) last
    else (last + (b % 32 : Nat) + 1) :: decodeGo rest none (last + (b % 32 : Nat) + 1)
  | b :: rest, some (di, acc), last =>
    if b / 32 % 2 = 1 then
      decodeGo rest (some (di + 1, acc + b % 32 * 2 ^ (5 * di))) last
    else
      (last + (acc + b % 32 * 2 ^ (5 * di) : Nat) + 1) ::
        decodeGo rest none (last + (acc + b % 32 * 2 ^ (5 * di) : Nat) + 1)

/-- Decode an adjacency list encoded as a string (`decode`, abbrase.c
lines 162-205): run the decoder loop with `last_num = 0` and no pending
token. -/
def decode (enc : List Nat) : List Int := decodeGo enc none 0

/-- Modelled from the spec: the encoder lives in `digest.py`, which is not
under src/.  Spec 4.1 step 5: a non-run delta value is written as a base-32
variable-length integer, 5 payload bits per byte, low-order chunks first,
with bit `0x20` as the continuation bit. -/
def encodeVarint (v : Nat) : List Nat :=
  if h : v < 32 then [v] else (v % 32 + 32) :: encodeVarint (v / 32)
termination_by v
decreasing_by exact Nat.div_lt_self (by omega) (by omega)

/-- Modelled from the spec: spec 4.1 steps 4-5 — a run of `r` zero deltas is
contracted to single-byte tokens of value `0x60 + (length - 1)`, run lengths
1..32 fitting one byte, longer runs split greedily. -/
def encodeRun (r : Nat) : List Nat :=
  if r = 0 then []
  else if h : r ≤ 32 then [0x60 + (r - 1)]
  else (0x60 + 31) :: encodeRun (r - 32)
termination_by r
decreasing_by omega

/-- Modelled from the spec: spec 4.1 steps 3-5 — emit the adjusted
(minus-one) delta sequence, contracting each maximal run of zeros into
run-length tokens and every non-zero delta into a varint. -/
def encodeAdj : List Nat → List Nat
  | [] => []
  | 0 :: t =>
    encodeRun ((t.takeWhile (· == 0)).length + 1) ++ encodeAdj (t.dropWhile (· == 0))
  | (d + 1) :: t => encodeVarint (d + 1) ++ encodeAdj t
termination_by l => l.length
decreasing_by
  · have h : (t.dropWhile (fun x => x == 0)).Sublist t := List.dropWhile_sublist _
    have := h.length_le
    simp; omega
  · simp

/-- Modelled from the spec: spec 4.1 steps 2-3 — successive differences (the
first value differenced from 0), then subtract 1 from every delta. -/
def adjDeltas : List Int → Int → List Nat
  | [], _ => []
  | x :: t, prev => (x - prev - 1).toNat :: adjDeltas t x

/-- Modelled from the spec: the full spec 4.1 encoding pipeline, the
conceptual inverse of `decode`. -/
def encode (s : List Int) : List Nat := encodeAdj (adjDeltas s 0)

/-- Reconstruction of the original ascending sequence from an adjusted delta
list: the decoder's running total adds back `delta + 1` per element.  Proof
helper relating `decodeGo` to `adjDeltas`. -/
def rebuild : List Nat → Int → List Int
  | [], _ => []
  | d :: t, last => (last + (d : Int) + 1) :: rebuild t (last + (d : Int) + 1)

theorem chunk_sum (w P : Nat) : w % 32 * P + w / 32 * (P * 32) = w * P := by
  calc w % 32 * P + w / 32 * (P * 32) = (w % 32 + 32 * (w / 32)) * P := by ring
  _ = w * P := by rw [Nat.mod_add_div]

theorem pow_five_succ (di : Nat) : 2 ^ (5 * (di + 1)) = 2 ^ (5 * di) * 32 := by
  rw [Nat.mul_succ, pow_add]
  norm_num

theorem decodeGo_cons_varint_cont (b : Nat) (rest : List Nat) (di acc : Nat) (last : Int)
    (h : b / 32 % 2 = 1) :
    decodeGo (b :: rest) (some (di, acc)) last =
      decodeGo rest (some (di + 1, acc + b % 32 * 2 ^ (5 * di))) last := by
  rw [decodeGo, if_pos h]

theorem decodeGo_cons_varint_stop (b : Nat) (rest : List Nat) (di acc : Nat) (last : Int)
    (h : ¬ b / 32 % 2 = 1) :
    decodeGo (b :: rest) (some (di, acc)) last =
      (last + (acc + b % 32 * 2 ^ (5 * di) : Nat) + 1) ::
        decodeGo rest none (last + (acc + b % 32 * 2 ^ (5 * di) : Nat) + 1) := by
  rw [decodeGo, if_neg h]

theorem decodeGo_cons_run (b : Nat) (rest : List Nat) (last : Int)
    (h0 : ¬ b = 0) (h1 : 0x60 ≤ b) :
    decodeGo (b :: rest) none last =
      (last + 1) :: (runZeros (b % 32) (last + 1) ++
        decodeGo rest none (last + 1 + (b % 32 : Nat))) := by
  rw [decodeGo, if_neg h0, if_pos h1]

theorem decodeGo_cons_small (b : Nat) (rest : List Nat) (last : Int)
    (h0 : ¬ b = 0) (h1 : ¬ 0x60 ≤ b) (h2 : ¬ b / 32 % 2 = 1) :
    decodeGo (b :: rest) none last =
      (last + (b % 32 : Nat) + 1) :: decodeGo rest none (last + (b % 32 : Nat) + 1) := by
  rw [decodeGo, if_neg h0, if_neg h1, if_neg h2]

theorem decodeGo_cons_cont (b : Nat) (rest : List Nat) (last : Int)
    (h0 : ¬ b = 0) (h1 : ¬ 0x60 ≤ b) (h2 : b / 32 % 2 = 1) :
    decodeGo (b :: rest) none last = decodeGo rest (some (1, b % 32)) last := by
  rw [decodeGo, if_neg h0, if_neg h1, if_pos h2]

theorem decodeGo_encodeVarint_cont (w : Nat) :
    ∀ (di acc : Nat) (rest : List Nat) (last : Int), acc < 2 ^ (5 * di) →
      decodeGo (encodeVarint w ++ rest) (some (di, acc)) last =
        (last + (acc + w * 2 ^ (5 * di) : Nat) + 1) ::
          decodeGo rest none (last + (acc + w * 2 ^ (5 * di) : Nat) + 1) := by
  induction w using Nat.strong_induction_on with
  | _ w ih =>
    intro di acc rest last hacc
    by_cases h : w < 32
    · rw [encodeVarint, dif_pos h, List.cons_append, List.nil_append,
        decodeGo_cons_varint_stop _ _ _ _ _ (by omega), Nat.mod_eq_of_lt h]
    · rw [encodeVarint, dif_neg h, List.cons_append,
        decodeGo_cons_varint_cont _ _ _ _ _ (by omega)]
      have hb2 : (w % 32 + 32) % 32 = w % 32 := by omega
      rw [hb2]
      have hdiv : w / 32 < w := Nat.div_lt_self (by omega) (by omega)
      have hacc2 : acc + w % 32 * 2 ^ (5 * di) < 2 ^ (5 * (di + 1)) := by
        have hm : w % 32 ≤ 31 := by omega
        have hle : w % 32 * 2 ^ (5 * di) ≤ 31 * 2 ^ (5 * di) :=
          Nat.mul_le_mul_right _ hm
        have hpow := pow_five_succ di
        omega
      rw [ih (w / 32) hdiv (di + 1) (acc + w % 32 * 2 ^ (5 * di)) rest last hacc2]
      have hval : acc + w % 32 * 2 ^ (5 * di) + w / 32 * 2 ^ (5 * (di + 1)) =
          acc + w * 2 ^ (5 * di) := by
        rw [pow_five_succ, Nat.add_assoc, chunk_sum]
      rw [hval]

theorem decodeGo_encodeVarint (v : Nat) (hv : 1 ≤ v) (rest : List Nat) (last : Int) :
    decodeGo (encodeVarint v ++ rest) none last =
      (last + (v : Nat) + 1) :: decodeGo rest none (last + (v : Nat) + 1) := by
  by_cases h : v < 32
  · rw [encodeVarint, dif_pos h, List.cons_append, List.nil_append,
      decodeGo_cons_small _ _ _ (by omega) (by omega) (by omega),
      Nat.mod_eq_of_lt h]
  · rw [encodeVarint, dif_neg h, List.cons_append,
      decodeGo_cons_cont _ _ _ (by omega) (by omega) (by omega)]
    have hb2 : (v % 32 + 32) % 32 = v % 32 := by omega
    rw [hb2, decodeGo_encodeVarint_cont (v / 32) 1 (v % 32) rest last (by omega)]
    have hval : v % 32 + v / 32 * 2 ^ (5 * 1) = v := by omega
    rw [hval]

theorem runZeros_append (m n : Nat) (last : Int) :
    runZeros (m + n) last = runZeros m last ++ runZeros n (last + m) := by
  induction m generalizing last with
  | zero => simp [runZeros]
  | succ k ih =>
    have : k + 1 + n = (k + n) + 1 := by omega
    rw [this, runZeros, runZeros, ih]
    simp only [List.cons_append, List.cons.injEq, true_and]
    congr 1
    push_cast
    ring_nf

theorem runZeros_succ_expand (k : Nat) (last : Int) :
    runZeros (k + 1) last = (last + 1) :: runZeros k (last + 1) := by
  rw [runZeros]

theorem decodeGo_encodeRun (r : Nat) :
    ∀ (rest : List Nat) (last : Int),
      decodeGo (encodeRun r ++ rest) none last =
        runZeros r last ++ decodeGo rest none (last + (r : Nat)) := by
  induction r using Nat.strong_induction_on with
  | _ r ih =>
    intro rest last
    by_cases h0 : r = 0
    · subst h0; simp [encodeRun, runZeros]
    by_cases h32 : r ≤ 32
    · obtain ⟨k, rfl⟩ : ∃ k, r = k + 1 := ⟨r - 1, by omega⟩
      rw [encodeRun, if_neg h0, dif_pos h32, List.cons_append, List.nil_append,
        decodeGo_cons_run _ _ _ (by omega) (by omega)]
      have hm : (0x60 + (k + 1 - 1)) % 32 = k := by omega
      rw [hm, runZeros_succ_expand, List.cons_append]
      have hc : last + 1 + ((k : Nat) : Int) = last + ((k + 1 : Nat) : Int) := by
        push_cast
        ring
      rw [hc]
    · rw [encodeRun, if_neg h0, dif_neg h32, List.cons_append,
        decodeGo_cons_run _ _ _ (by omega) (by omega)]
      have hm : (0x60 + 31) % 32 = 31 := by omega
      rw [hm, ih (r - 32) (by omega) rest (last + 1 + ((31 : Nat) : Int))]
      have hr : r = (31 + 1) + (r - 32) := by omega
      conv_rhs => rw [hr, runZeros_append, runZeros_succ_expand]
      simp only [List.cons_append, List.append_assoc]
      push_cast [Nat.cast_sub (show 32 ≤ r by omega)]
      ring_nf

theorem rebuild_replicate_zero (m : Nat) :
    ∀ (u : List Nat) (last : Int),
      rebuild (List.replicate m 0 ++ u) last = runZeros m last ++ rebuild u (last + (m : Nat)) := by
  induction m with
  | zero => intro u last; simp [runZeros]
  | succ k ih =>
    intro u last
    rw [List.replicate_succ, List.cons_append, rebuild, ih, runZeros_succ_expand,
      List.cons_append]
    have h0 : last + ((0 : Nat) : Int) + 1 = last + 1 := by push_cast; ring
    rw [h0]
    have hc : last + 1 + ((k : Nat) : Int) = last + ((k + 1 : Nat) : Int) := by
      push_cast
      ring
    rw [hc]

theorem decodeGo_encodeAdj (l : List Nat) :
    ∀ (rest : List Nat) (last : Int),
      decodeGo (encodeAdj l ++ rest) none last =
        rebuild l last ++ decodeGo rest none (last + (l.sum + l.length : Nat)) := by
  induction l using encodeAdj.induct with
  | case1 =>
    intro rest last
    simp [encodeAdj, rebuild]
  | case2 t ih =>
    intro rest last
    rw [encodeAdj, List.append_assoc, decodeGo_encodeRun, ih]
    have hz : t.takeWhile (· == 0) = List.replicate (t.takeWhile (· == 0)).length 0 := by
      apply List.eq_replicate_of_mem
      intro b hb
      have := List.mem_takeWhile_imp hb
      simpa using this
    have ht : t = t.takeWhile (· == 0) ++ t.dropWhile (· == 0) :=
      (List.takeWhile_append_dropWhile _ _).symm
    have hreb : rebuild (0 :: t) last =
        runZeros ((t.takeWhile (· == 0)).length + 1) last ++
          rebuild (t.dropWhile (· == 0))
            (last + (((t.takeWhile (· == 0)).length + 1 : Nat) : Int)) := by
      conv_lhs => rw [ht, hz]
      have hrepl : (0 : Nat) :: (List.replicate (t.takeWhile (· == 0)).length 0 ++
          t.dropWhile (· == 0)) =
          List.replicate ((t.takeWhile (· == 0)).length + 1) 0 ++ t.dropWhile (· == 0) := by
        rw [List.replicate_succ, List.cons_append]
      rw [hrepl, rebuild_replicate_zero]
    rw [hreb, List.append_assoc]
    have hsum : (0 :: t).sum + (0 :: t).length =
        ((t.takeWhile (· == 0)).length + 1) +
          ((t.dropWhile (· == 0)).sum + (t.dropWhile (· == 0)).length) := by
      have hs : t.sum = (t.takeWhile (· == 0)).sum + (t.dropWhile (· == 0)).sum := by
        conv_lhs => rw [ht]
        rw [List.sum_append]
      have hl : t.length = (t.takeWhile (· == 0)).length + (t.dropWhile (· == 0)).length := by
        conv_lhs => rw [ht]
        rw [List.length_append]
      have hzs : (t.takeWhile (· == 0)).sum = 0 := by
        rw [hz]
        simp
      simp only [List.sum_cons, List.length_cons]
      omega
    have hc : last + (((t.takeWhile (· == 0)).length + 1 : Nat) : Int) +
        (((t.dropWhile (· == 0)).sum + (t.dropWhile (· == 0)).length : Nat) : Int) =
        last + (((0 :: t).sum + (0 :: t).length : Nat) : Int) := by
      rw [hsum]
      push_cast
      ring
    rw [hc]
  | case3 d t ih =>
    intro rest last
    rw [encodeAdj, List.append_assoc, decodeGo_encodeVarint (d + 1) (by omega), ih,
      rebuild, List.cons_append]
    have hc : last + ((d + 1 : Nat) : Int) + 1 + ((t.sum + t.length : Nat) : Int) =
        last + ((((d + 1) :: t).sum + ((d + 1) :: t).length : Nat) : Int) := by
      simp only [List.sum_cons, List.length_cons]
      push_cast
      ring
    rw [hc]

theorem rebuild_adjDeltas (s : List Int) :
    ∀ (prev : Int), List.Chain (· < ·) prev s → rebuild (adjDeltas s prev) prev = s := by
  induction s with
  | nil => intro prev _; rfl
  | cons x t ih =>
    intro prev hch
    rw [List.chain_cons] at hch
    rw [adjDeltas, rebuild]
    have hx : prev + (((x - prev - 1).toNat : Nat) : Int) + 1 = x := by
      have := hch.1
      omega
    rw [hx, ih x hch.2]

/-- Claim C1: for every strictly ascending sequence of positive integers,
decoding the spec 4.1 encoding of the sequence yields the sequence back:
the program's decoder inverts the conceptual encoding pipeline. -/
theorem c1_decode_encode (s : List Int) (h : List.Chain (· < ·) 0 s) :
    decode (encode s) = s := by
  rw [encode, decode]
  have h0 : encodeAdj (adjDeltas s 0) = encodeAdj (adjDeltas s 0) ++ [] := by
    rw [List.append_nil]
  rw [h0, decodeGo_encodeAdj]
  have hd : decodeGo [] none (0 + ((adjDeltas s 0).sum + (adjDeltas s 0).length : Nat)) = [] := by
    rw [decodeGo]
  rw [hd, List.append_nil, rebuild_adjDeltas s 0 h]

/-- Witness for C1 at the source comment's own example `[1, 2, 3, 5, 80]`. -/
theorem c1_decode_encode_witness :
    List.Chain (· < ·) 0 [1, 2, 3, 5, 80] ∧
      decode (encode [1, 2, 3, 5, 80]) = [1, 2, 3, 5, 80] :=
  ⟨by norm_num [List.chain_cons],
    c1_decode_encode [1, 2, 3, 5, 80] (by norm_num [List.chain_cons])⟩

/-- Claim C9: the spec 4.1 encoding of the 32 consecutive integers 100..131
is one base-32 varint for the initial adjusted delta 99 (bytes 0x23 0x03)
followed by a single run-length token 0x7e for the run of 31 zero deltas, and
the program's decoder maps those three bytes back to exactly the 32 values
100..131, the whole run coming from that one token. -/
theorem c9_run_of_32 :
    decode [0x23, 0x03, 0x7e] =
      [100, 101, 102, 103, 104, 105, 106, 107, 108, 109, 110, 111, 112, 113,
       114, 115, 116, 117, 118, 119, 120, 121, 122, 123, 124, 125, 126, 127,
       128, 129, 130, 131] ∧
    encode
      [100, 101, 102, 103, 104, 105, 106, 107, 108, 109, 110, 111, 112, 113,
       114, 115, 116, 117, 118, 119, 120, 121, 122, 123, 124, 125, 126, 127,
       128, 129, 130, 131] = [0x23, 0x03, 0x7e] := by
  constructor
  · decide
  · rw [encode]
    rw [show adjDeltas
        [100, 101, 102, 103, 104, 105, 106, 107, 108, 109, 110, 111, 112, 113,
         114, 115, 116, 117, 118, 119, 120, 121, 122, 123, 124, 125, 126, 127,
         128, 129, 130, 131] 0 = 99 :: List.replicate 31 0 from by decide]
    have h99 : (99 : Nat) = Nat.succ 98 := rfl
    rw [h99, encodeAdj.eq_3]
    have hv : encodeVarint (98 + 1) = [35, 3] := by
      rw [encodeVarint]
      norm_num
      rw [encodeVarint]
      norm_num
    rw [hv]
    have hrep : List.replicate 31 (0 : Nat) = 0 :: List.replicate 30 0 := rfl
    rw [hrep, encodeAdj.eq_2]
    rw [show (List.takeWhile (fun x => x == 0) (List.replicate 30 (0 : Nat))).length = 30
      from by decide]
    rw [show List.dropWhile (fun x => x == 0) (List.replicate 30 (0 : Nat)) = [] from by decide]
    rw [encodeAdj.eq_1, List.append_nil]
    rw [show encodeRun (30 + 1) = [126] from by rw [encodeRun]; norm_num]
    rfl

/-- The merge-style sorted intersection `intvec_intersect` (abbrase.c
lines 66-83): two cursors, on equal heads emit and advance both, otherwise
advance the side with the smaller head (`diff = a->data[ai] - b->data[bi]`). -/
def intvec_intersect : List Int → List Int → List Int
  | [], _ => []
  | _ :: _, [] => []
  | a :: as, b :: bs =>
    if a = b then a :: intvec_intersect as bs
    else if a < b then intvec_intersect as (b :: bs)
    else intvec_intersect (a :: as) bs
termination_by a b => a.length + b.length
decreasing_by
  · simp only [List.length_cons]
    omega
  · simp only [List.length_cons]
    omega
  · simp only [List.length_cons]
    omega

theorem intvec_intersect_subset_left :
    ∀ (a b : List Int) (x : Int), x ∈ intvec_intersect a b → x ∈ a := by
  intro a b
  induction a, b using intvec_intersect.induct with
  | case1 b =>
    intro x hx
    rw [intvec_intersect] at hx
    exact absurd hx (List.not_mem_nil x)
  | case2 a as =>
    intro x hx
    rw [intvec_intersect] at hx
    exact absurd hx (List.not_mem_nil x)
  | case3 as b bs ih =>
    intro x hx
    rw [intvec_intersect, if_pos rfl] at hx
    rcases List.mem_cons.mp hx with h | h
    · exact h ▸ List.mem_cons_self b as
    · exact List.mem_cons_of_mem b (ih x h)
  | case4 a as b bs hne hlt ih =>
    intro x hx
    rw [intvec_intersect, if_neg hne, if_pos hlt] at hx
    exact List.mem_cons_of_mem a (ih x hx)
  | case5 a as b bs hne hlt ih =>
    intro x hx
    rw [intvec_intersect, if_neg hne, if_neg hlt] at hx
    exact ih x hx

theorem intvec_intersect_sorted :
    ∀ (a b : List Int), List.Sorted (· < ·) a → List.Sorted (· < ·) b →
      List.Sorted (· < ·) (intvec_intersect a b) := by
  intro a b
  induction a, b using intvec_intersect.induct with
  | case1 b =>
    intro _ _
    rw [intvec_intersect]
    exact List.sorted_nil
  | case2 a as =>
    intro _ _
    rw [intvec_intersect]
    exact List.sorted_nil
  | case3 as b bs ih =>
    intro ha hb
    rw [intvec_intersect, if_pos rfl]
    rw [List.sorted_cons] at ha hb ⊢
    exact ⟨fun x hx => ha.1 x (intvec_intersect_subset_left as bs x hx), ih ha.2 hb.2⟩
  | case4 a as b bs hne hlt ih =>
    intro ha hb
    rw [intvec_intersect, if_neg hne, if_pos hlt]
    rw [List.sorted_cons] at ha
    exact ih ha.2 hb
  | case5 a as b bs hne hlt ih =>
    intro ha hb
    rw [intvec_intersect, if_neg hne, if_neg hlt]
    rw [List.sorted_cons] at hb
    exact ih ha hb.2

theorem intvec_intersect_mem :
    ∀ (a b : List Int), List.Sorted (· < ·) a → List.Sorted (· < ·) b →
      ∀ x : Int, x ∈ intvec_intersect a b ↔ x ∈ a ∧ x ∈ b := by
  intro a b
  induction a, b using intvec_intersect.induct with
  | case1 b =>
    intro _ _ x
    rw [intvec_intersect]
    simp
  | case2 a as =>
    intro _ _ x
    rw [intvec_intersect]
    simp
  | case3 as b bs ih =>
    intro ha hb x
    rw [intvec_intersect, if_pos rfl]
    rw [List.sorted_cons] at ha hb
    constructor
    · intro hx
      rcases List.mem_cons.mp hx with h | h
      · exact ⟨h ▸ List.mem_cons_self b as, h ▸ List.mem_cons_self b bs⟩
      · have hm := (ih ha.2 hb.2 x).mp h
        exact ⟨List.mem_cons_of_mem b hm.1, List.mem_cons_of_mem b hm.2⟩
    · intro hx
      rcases List.mem_cons.mp hx.1 with h | h
      · exact h ▸ List.mem_cons_self b _
      · rcases List.mem_cons.mp hx.2 with h2 | h2
        · exact absurd (h2 ▸ ha.1 x h) (lt_irrefl x)
        · exact List.mem_cons_of_mem b ((ih ha.2 hb.2 x).mpr ⟨h, h2⟩)
  | case4 a as b bs hne hlt ih =>
    intro ha hb x
    rw [intvec_intersect, if_neg hne, if_pos hlt]
    rw [List.sorted_cons] at ha
    rw [ih ha.2 hb]
    constructor
    · intro hx
      exact ⟨List.mem_cons_of_mem a hx.1, hx.2⟩
    · intro hx
      rcases List.mem_cons.mp hx.1 with h | h
      · subst h
        rcases List.mem_cons.mp hx.2 with h2 | h2
        · exact absurd h2 hne
        · rw [List.sorted_cons] at hb
          exact absurd (hb.1 x h2) (by omega)
      · exact ⟨h, hx.2⟩
  | case5 a as b bs hne hlt ih =>
    intro ha hb x
    rw [intvec_intersect, if_neg hne, if_neg hlt]
    rw [List.sorted_cons] at hb
    rw [ih ha hb.2]
    constructor
    · intro hx
      exact ⟨hx.1, List.mem_cons_of_mem b hx.2⟩
    · intro hx
      rcases List.mem_cons.mp hx.2 with h2 | h2
      · subst h2
        rcases List.mem_cons.mp hx.1 with h | h
        · exact absurd h.symm hne
        · rw [List.sorted_cons] at ha
          exact absurd (ha.1 x h) (by omega)
      · exact ⟨hx.1, h2⟩

theorem intvec_intersect_comm :
    ∀ (a b : List Int), intvec_intersect a b = intvec_intersect b a := by
  intro a b
  induction a, b using intvec_intersect.induct with
  | case1 b =>
    rw [intvec_intersect]
    cases b with
    | nil => rw [intvec_intersect]
    | cons x xs => rw [intvec_intersect]
  | case2 a as =>
    rw [intvec_intersect]
    rw [intvec_intersect]
  | case3 as b bs ih =>
    rw [intvec_intersect, if_pos rfl, intvec_intersect, if_pos rfl, ih]
  | case4 a as b bs hne hlt ih =>
    rw [intvec_intersect, if_neg hne, if_pos hlt, ih]
    rw [intvec_intersect, if_neg (fun h => hne h.symm), if_neg (by omega)]
  | case5 a as b bs hne hlt ih =>
    rw [intvec_intersect, if_neg hne, if_neg hlt, ih]
    rw [intvec_intersect, if_neg (fun h => hne h.symm), if_pos (by omega)]

/-- Claim C4: for strictly ascending integer sequences `a` and `b`, the
sorted-merge intersection is strictly ascending, contains exactly the values
present in both inputs, and is commutative. -/
theorem c4_intersect (a b : List Int)
    (ha : List.Sorted (· < ·) a) (hb : List.Sorted (· < ·) b) :
    List.Sorted (· < ·) (intvec_intersect a b) ∧
      (∀ x : Int, x ∈ intvec_intersect a b ↔ x ∈ a ∧ x ∈ b) ∧
      intvec_intersect a b = intvec_intersect b a :=
  ⟨intvec_intersect_sorted a b ha hb, intvec_intersect_mem a b ha hb,
    intvec_intersect_comm a b⟩

/-- Witness for C4 at the concrete sorted inputs `[1, 2, 3, 5]`, `[2, 5, 9]`. -/
theorem c4_intersect_witness :
    List.Sorted (· < ·) [(1 : Int), 2, 3, 5] ∧ List.Sorted (· < ·) [(2 : Int), 5, 9] ∧
      (List.Sorted (· < ·) (intvec_intersect [(1 : Int), 2, 3, 5] [2, 5, 9]) ∧
        (∀ x : Int, x ∈ intvec_intersect [(1 : Int), 2, 3, 5] [2, 5, 9] ↔
          x ∈ [(1 : Int), 2, 3, 5] ∧ x ∈ [(2 : Int), 5, 9]) ∧
        intvec_intersect [(1 : Int), 2, 3, 5] [2, 5, 9] =
          intvec_intersect [(2 : Int), 5, 9] [1, 2, 3, 5]) :=
  ⟨by norm_num [List.sorted_cons], by norm_num [List.sorted_cons],
    c4_intersect [1, 2, 3, 5] [2, 5, 9] (by norm_num [List.sorted_cons])
      (by norm_num [List.sorted_cons])⟩

/-- The compile-time bucket cap `MAX_PREFIXES` (abbrase.c line 10). -/
def MAX_PREFIXES : Nat := 1024

/-- Lowercase 3-character prefix extraction
(`prefix[j] = tolower(g->words[i][j])`, abbrase.c lines 121-123). -/
def prefix3 (w : List Char) : List Char := (w.take 3).map Char.toLower

/-- The linear find-or-create scan over the bucket table (abbrase.c
lines 125-138): find the bucket whose prefix matches and append the word id,
or append a fresh bucket at the end, failing (`errx(2)`) when the bucket
count already equals `MAX_PREFIXES`.  `total` is the current `n_prefixes`. -/
def prefixesInsertGo (total : Nat) (p : List Char) (i : Int) :
    List (List Char × List Int) → Option (List (List Char × List Int))
  | [] => if total = MAX_PREFIXES then none else some [(p, [i])]
  | b :: rest =>
    if b.1 = p then some ((b.1, b.2 ++ [i]) :: rest)
    else (prefixesInsertGo total p i rest).map (b :: ·)

/-- Insert word id `i` with prefix `p` into the bucket table. -/
def prefixes_insert (bs : List (List Char × List Int)) (p : List Char) (i : Int) :
    Option (List (List Char × List Int)) :=
  prefixesInsertGo bs.length p i bs

/-- The word loop of `wordgraph_init` (abbrase.c lines 118-141): insert the
words in id order starting at id 1; fail with code 2 (`errx(2)`, too many
prefixes) as soon as a bucket beyond `MAX_PREFIXES` would be created and with
code 3 (`errx(3)`, not enough prefixes) when fewer than `MAX_PREFIXES`
buckets exist after the last word. -/
def buildPrefixes : List (List Char) → Int → List (List Char × List Int) →
    Except Nat (List (List Char × List Int))
  | [], _, bs => if bs.length = MAX_PREFIXES then .ok bs else .error 3
  | w :: ws, i, bs =>
    match prefixes_insert bs (prefix3 w) i with
    | none => .error 2
    | some bs2 => buildPrefixes ws (i + 1) bs2

/-- Bucket-table construction of `wordgraph_init` (abbrase.c lines 107-145)
from the dictionary words of ids `1..n_words-1`, in file order. -/
def wordgraph_init (ws : List (List Char)) : Except Nat (List (List Char × List Int)) :=
  buildPrefixes ws 1 []

/-- Exit code view of the build result: 0 on success, otherwise the `errx`
code. -/
def exceptCode : Except Nat (List (List Char × List Int)) → Nat
  | .ok _ => 0
  | .error e => e

/-- The number of distinct 3-character lowercase prefixes of a word list. -/
def distinctPrefixCount (ws : List (List Char)) : Nat :=
  ((ws.map prefix3).toFinset).card

theorem prefixesInsertGo_mem (p : List Char) (i : Int) :
    ∀ (bs : List (List Char × List Int)) (total : Nat), p ∈ bs.map Prod.fst →
      ∃ bs2, prefixesInsertGo total p i bs = some bs2 ∧
        bs2.map Prod.fst = bs.map Prod.fst := by
  intro bs
  induction bs with
  | nil =>
    intro total hp
    exact absurd hp (List.not_mem_nil p)
  | cons b rest ih =>
    intro total hp
    by_cases hb : b.1 = p
    · exact ⟨(b.1, b.2 ++ [i]) :: rest, by rw [prefixesInsertGo, if_pos hb], by simp⟩
    · have hp2 : p ∈ rest.map Prod.fst := by
        rcases List.mem_cons.mp hp with h | h
        · exact absurd h.symm hb
        · exact h
      obtain ⟨bs2, h1, h2⟩ := ih total hp2
      refine ⟨b :: bs2, ?_, by simp [h2]⟩
      rw [prefixesInsertGo, if_neg hb, h1]
      rfl

theorem prefixesInsertGo_not_mem (p : List Char) (i : Int) :
    ∀ (bs : List (List Char × List Int)) (total : Nat), p ∉ bs.map Prod.fst →
      prefixesInsertGo total p i bs =
        (if total = MAX_PREFIXES then none else some (bs ++ [(p, [i])])) := by
  intro bs
  induction bs with
  | nil =>
    intro total _
    rw [prefixesInsertGo]
    split
    · rfl
    · rfl
  | cons b rest ih =>
    intro total hp
    have hb : ¬ b.1 = p := by
      intro hb
      exact hp (by simp [← hb])
    have hp2 : p ∉ rest.map Prod.fst := by
      intro h
      exact hp (List.mem_cons_of_mem _ h)
    rw [prefixesInsertGo, if_neg hb, ih total hp2]
    split
    · rfl
    · rfl

theorem buildPrefixes_spec :
    ∀ (ws : List (List Char)) (i : Int) (bs : List (List Char × List Int)),
      (bs.map Prod.fst).Nodup → bs.length ≤ MAX_PREFIXES →
      exceptCode (buildPrefixes ws i bs) =
        (if ((bs.map Prod.fst).toFinset ∪ (ws.map prefix3).toFinset).card = MAX_PREFIXES
          then 0
          else if ((bs.map Prod.fst).toFinset ∪ (ws.map prefix3).toFinset).card < MAX_PREFIXES
            then 3 else 2) := by
  intro ws
  induction ws with
  | nil =>
    intro i bs hnd hle
    have hcard : ((bs.map Prod.fst).toFinset ∪ (([] : List (List Char)).map prefix3).toFinset).card
        = bs.length := by
      simp [List.toFinset_card_of_nodup hnd]
    rw [buildPrefixes, hcard]
    by_cases h : bs.length = MAX_PREFIXES
    · rw [if_pos h, if_pos h]
      rfl
    · rw [if_neg h, if_neg h, if_pos (by omega)]
      rfl
  | cons w ws ih =>
    intro i bs hnd hle
    by_cases hp : prefix3 w ∈ bs.map Prod.fst
    · obtain ⟨bs2, h1, h2⟩ := prefixesInsertGo_mem (prefix3 w) i bs bs.length hp
      rw [buildPrefixes, prefixes_insert, h1]
      have hlen2 : bs2.length = bs.length := by
        have := congrArg List.length h2
        simpa using this
      rw [ih (i + 1) bs2 (h2 ▸ hnd) (by omega)]
      have hset : (bs2.map Prod.fst).toFinset ∪ ((ws.map prefix3).toFinset) =
          (bs.map Prod.fst).toFinset ∪ (((w :: ws).map prefix3).toFinset) := by
        rw [h2]
        simp only [List.map_cons, List.toFinset_cons]
        rw [Finset.union_insert]
        rw [Finset.insert_eq_self.mpr]
        exact Finset.mem_union_left _ (List.mem_toFinset.mpr hp)
      rw [hset]
    · by_cases hfull : bs.length = MAX_PREFIXES
      · rw [buildPrefixes, prefixes_insert,
          prefixesInsertGo_not_mem (prefix3 w) i bs bs.length hp, if_pos hfull]
        have hge : MAX_PREFIXES <
            ((bs.map Prod.fst).toFinset ∪ (((w :: ws).map prefix3).toFinset)).card := by
          have hsub : insert (prefix3 w) ((bs.map Prod.fst).toFinset) ⊆
              (bs.map Prod.fst).toFinset ∪ (((w :: ws).map prefix3).toFinset) := by
            intro x hx
            rcases Finset.mem_insert.mp hx with h | h
            · subst h
              exact Finset.mem_union_right _ (by simp [List.mem_toFinset])
            · exact Finset.mem_union_left _ h
          have hcard1 : (insert (prefix3 w) ((bs.map Prod.fst).toFinset)).card =
              bs.length + 1 := by
            rw [Finset.card_insert_of_not_mem (by simpa [List.mem_toFinset] using hp),
              List.toFinset_card_of_nodup hnd]
            simp
          have := Finset.card_le_card hsub
          omega
        rw [if_neg (by omega), if_neg (by omega)]
        rfl
      · rw [buildPrefixes, prefixes_insert,
          prefixesInsertGo_not_mem (prefix3 w) i bs bs.length hp, if_neg hfull]
        have hnd2 : ((bs ++ [(prefix3 w, [i])]).map Prod.fst).Nodup := by
          simp only [List.map_append, List.map_cons, List.map_nil]
          rw [List.nodup_append]
          exact ⟨hnd, List.nodup_singleton _,
            by simp only [List.disjoint_singleton]; simpa using hp⟩
        rw [ih (i + 1) _ hnd2 (by simp; omega)]
        have hset : (((bs ++ [(prefix3 w, [i])]).map Prod.fst).toFinset ∪
            ((ws.map prefix3).toFinset)) =
            (bs.map Prod.fst).toFinset ∪ (((w :: ws).map prefix3).toFinset) := by
          ext x
          simp [List.mem_toFinset]
          tauto
        rw [hset]

/-- Claim C5: over a corpus whose words all have at least the prefix length
(3 characters), bucket-table construction succeeds exactly when the words
cover exactly 1024 distinct lowercase 3-character prefixes; with fewer it
fails with the not-enough-prefixes error (exit code 3), with more it fails
with the too-many-prefixes error (exit code 2, raised as soon as a 1025th
bucket would be created). -/
theorem c5_prefix_invariant (ws : List (List Char)) (_hlen : ∀ w ∈ ws, 3 ≤ w.length) :
    exceptCode (wordgraph_init ws) =
      (if distinctPrefixCount ws = 1024 then 0
        else if distinctPrefixCount ws < 1024 then 3 else 2) := by
  have h := buildPrefixes_spec ws 1 [] (by simp) (by simp [MAX_PREFIXES])
  rw [wordgraph_init, h]
  have hset : ((([] : List (List Char × List Int)).map Prod.fst).toFinset ∪
      ((ws.map prefix3).toFinset)).card = distinctPrefixCount ws := by
    simp [distinctPrefixCount]
  rw [hset]
  rfl

/-- Witness for C5 at a two-word corpus (two distinct prefixes, so the build
fails with the not-enough-prefixes exit code 3). -/
theorem c5_prefix_invariant_witness :
    (∀ w ∈ [['a', 'b', 'c'], ['a', 'b', 'd']], 3 ≤ w.length) ∧
      exceptCode (wordgraph_init [['a', 'b', 'c'], ['a', 'b', 'd']]) =
        (if distinctPrefixCount [['a', 'b', 'c'], ['a', 'b', 'd']] = 1024 then 0
          else if distinctPrefixCount [['a', 'b', 'c'], ['a', 'b', 'd']] < 1024 then 3
          else 2) :=
  ⟨by decide, c5_prefix_invariant [['a', 'b', 'c'], ['a', 'b', 'd']] (by decide)⟩

/-- One narrowing step of the backward pass (abbrase.c lines 366-374): keep
the candidate words whose decoded follower set meets the next position's
candidate set.  `fc` maps a word id to its encoded follower string
(`g->followers_compressed`). -/
def backstep (fc : Int → List Nat) (words next_words : List Int) : List Int :=
  words.filter (fun w => (intvec_intersect next_words (decode (fc w))).length ≠ 0)

/-- The backward constraint-propagation loop of `main` (abbrase.c
lines 359-385), processing positions from last to first: returns the
narrowed candidate sets together with the `mismatch` counter.  At the last
position `next_words` is NULL so `new_words` stays empty and the original
set is kept with `mismatch++`; elsewhere the narrowed set replaces the
original only when non-empty, otherwise the original set is kept and
`mismatch` is incremented. -/
def backwardPass (fc : Int → List Nat) : List (List Int) → List (List Int) × Nat
  | [] => ([], 0)
  | s :: rest =>
    match backwardPass fc rest with
    | (rest2, m) =>
      match rest2 with
      | [] => ([s], m + 1)
      | next :: _ =>
        let nw := backstep fc s next
        if nw.length ≠ 0 then (nw :: rest2, m) else (s :: rest2, m + 1)

/-- The forward selection loop of `main` (abbrase.c lines 387-402): starting
from `last_word` (the hook word or the sentinel 0), intersect each
position's candidate set with the decoded follower set of the previous word,
pick the first element of the intersection when non-empty and the first
element of the candidate set otherwise.  `none` models the fatal
out-of-range abort of `intvec_get(_, 0)` on an empty vector. -/
def forwardPass (fc : Int → List Nat) (last : Int) : List (List Int) → Option (List Int)
  | [] => some []
  | s :: rest =>
    match (if (intvec_intersect s (decode (fc last))).length ≠ 0
        then intvec_intersect s (decode (fc last)) else s) with
    | [] => none
    | w :: _ => (forwardPass fc w rest).map (w :: ·)

theorem forwardPass_length (fc : Int → List Nat) :
    ∀ (sets : List (List Int)) (last : Int) (out : List Int),
      forwardPass fc last sets = some out → out.length = sets.length := by
  intro sets
  induction sets with
  | nil =>
    intro last out h
    rw [forwardPass] at h
    cases h
    rfl
  | cons s rest ih =>
    intro last out h
    rw [forwardPass] at h
    split at h
    · exact absurd h (by simp)
    · next w ws heq =>
      rcases Option.map_eq_some'.mp h with ⟨out2, h2, h3⟩
      subst h3
      simp [ih w out2 h2]

/-- Claim C3: whenever the forward pass completes (no index fault), the word
selected at position `i` is the first element of the intersection of that
position's candidate set with the decoded follower set of the previous word
(the start word at position 0, the previously selected word afterwards) when
that intersection is non-empty, and the first element of the candidate set
otherwise. -/
theorem c3_forward_selection (fc : Int → List Nat) (start : Int)
    (sets : List (List Int)) (out : List Int)
    (h : forwardPass fc start sets = some out) :
    out.length = sets.length ∧
      ∀ i, i < sets.length →
        out.getD i 0 =
          (if (intvec_intersect (sets.getD i [])
                (decode (fc (if i = 0 then start else out.getD (i - 1) 0)))).length ≠ 0
            then (intvec_intersect (sets.getD i [])
              (decode (fc (if i = 0 then start else out.getD (i - 1) 0)))).headI
            else (sets.getD i []).headI) := by
  refine ⟨forwardPass_length fc sets start out h, ?_⟩
  induction sets generalizing start out with
  | nil =>
    intro i hi
    exact absurd hi (by simp)
  | cons s rest ih =>
    rw [forwardPass] at h
    split at h
    · exact absurd h (by simp)
    · next w ws heq =>
      rcases Option.map_eq_some'.mp h with ⟨out2, h2, h3⟩
      subst h3
      intro i hi
      match i with
      | 0 =>
        have h0 : ∀ z : Int, (if (0 : Nat) = 0 then start else z) = start :=
          fun z => if_pos rfl
        simp only [List.getD_cons_zero, h0, if_true, ite_true]
        by_cases hc : (intvec_intersect s (decode (fc start))).length ≠ 0
        · rw [if_pos hc] at heq ⊢
          rw [heq]
          rfl
        · rw [if_neg hc] at heq ⊢
          rw [heq]
          rfl
      | n + 1 =>
        have hrec := ih w out2 h2 n (by simpa using hi)
        simp only [List.getD_cons_succ]
        match n with
        | 0 =>
          simpa using hrec
        | k + 1 =>
          simpa using hrec

/-- Witness for C3 at a one-position chain with empty follower sets. -/
theorem c3_forward_selection_witness :
    forwardPass (fun _ => []) 0 [[5]] = some [5] ∧
      ([5] : List Int).length = ([[5]] : List (List Int)).length ∧
      ∀ i, i < ([[5]] : List (List Int)).length →
        ([5] : List Int).getD i 0 =
          (if (intvec_intersect (([[5]] : List (List Int)).getD i [])
                (decode ((fun _ => ([] : List Nat))
                  (if i = 0 then 0 else ([5] : List Int).getD (i - 1) 0)))).length ≠ 0
            then (intvec_intersect (([[5]] : List (List Int)).getD i [])
              (decode ((fun _ => ([] : List Nat))
                (if i = 0 then 0 else ([5] : List Int).getD (i - 1) 0)))).headI
            else (([[5]] : List (List Int)).getD i []).headI) := by
  have hfp : forwardPass (fun _ => []) 0 [[5]] = some [5] := by
    rw [forwardPass]
    rw [show intvec_intersect [5] (decode ((fun _ => ([] : List Nat)) 0)) = [] from by
      rw [decode, decodeGo, intvec_intersect]]
    simp [forwardPass]
  exact ⟨hfp, c3_forward_selection (fun _ => []) 0 [[5]] [5] hfp⟩

theorem prefixesInsertGo_nonempty (p : List Char) (i : Int) :
    ∀ (bs : List (List Char × List Int)) (total : Nat)
      (bs2 : List (List Char × List Int)),
      (∀ pb ∈ bs, pb.2 ≠ []) → prefixesInsertGo total p i bs = some bs2 →
      ∀ pb ∈ bs2, pb.2 ≠ [] := by
  intro bs
  induction bs with
  | nil =>
    intro total bs2 _ h
    rw [prefixesInsertGo] at h
    split at h
    · exact absurd h (by simp)
    · cases h
      intro pb hpb
      rw [List.mem_singleton] at hpb
      subst hpb
      simp
  | cons b rest ih =>
    intro total bs2 hne h
    rw [prefixesInsertGo] at h
    split at h
    · cases h
      intro pb hpb
      rcases List.mem_cons.mp hpb with h1 | h1
      · subst h1
        simp
      · exact hne pb (List.mem_cons_of_mem b h1)
    · rcases Option.map_eq_some'.mp h with ⟨bs3, h1, h2⟩
      subst h2
      intro pb hpb
      rcases List.mem_cons.mp hpb with h1b | h1b
      · subst h1b
        exact hne pb (List.mem_cons_self _ _)
      · exact ih total bs3 (fun q hq => hne q (List.mem_cons_of_mem b hq)) h1 pb h1b

theorem buildPrefixes_nonempty :
    ∀ (ws : List (List Char)) (i : Int) (bs bs2 : List (List Char × List Int)),
      (∀ pb ∈ bs, pb.2 ≠ []) → buildPrefixes ws i bs = .ok bs2 →
      ∀ pb ∈ bs2, pb.2 ≠ [] := by
  intro ws
  induction ws with
  | nil =>
    intro i bs bs2 hne h
    rw [buildPrefixes] at h
    split at h
    · cases h
      exact hne
    · exact absurd h (by simp)
  | cons w ws ih =>
    intro i bs bs2 hne h
    rw [buildPrefixes] at h
    split at h
    · exact absurd h (by simp)
    · next bs3 hins =>
      exact ih (i + 1) bs3 bs2
        (prefixesInsertGo_nonempty (prefix3 w) i bs bs.length bs3 hne hins) h

theorem backwardPass_nonempty (fc : Int → List Nat) :
    ∀ (sets : List (List Int)), (∀ s ∈ sets, s ≠ []) →
      ∀ t ∈ (backwardPass fc sets).1, t ≠ [] := by
  intro sets
  induction sets with
  | nil =>
    intro _ t ht
    rw [backwardPass] at ht
    exact absurd ht (by simp)
  | cons s rest ih =>
    intro hne t ht
    rw [backwardPass] at ht
    rcases hrec : backwardPass fc rest with ⟨rest2, m⟩
    rw [hrec] at ht
    have hne2 : ∀ u ∈ rest2, u ≠ [] := by
      intro u hu
      exact ih (fun q hq => hne q (List.mem_cons_of_mem s hq)) u (by rw [hrec]; exact hu)
    cases rest2 with
    | nil =>
      simp only at ht
      rw [List.mem_singleton] at ht
      subst ht
      exact hne t (List.mem_cons_self _ _)
    | cons next tl =>
      simp only at ht
      split at ht
      · next hlen =>
        rcases List.mem_cons.mp ht with h1 | h1
        · subst h1
          intro hcon
          rw [hcon] at hlen
          exact hlen rfl
        · exact hne2 t h1
      · rcases List.mem_cons.mp ht with h1 | h1
        · subst h1
          exact hne t (List.mem_cons_self _ _)
        · exact hne2 t h1

theorem forwardPass_isSome (fc : Int → List Nat) :
    ∀ (sets : List (List Int)) (last : Int), (∀ s ∈ sets, s ≠ []) →
      (forwardPass fc last sets).isSome := by
  intro sets
  induction sets with
  | nil =>
    intro last _
    rw [forwardPass]
    rfl
  | cons s rest ih =>
    intro last hne
    rw [forwardPass]
    split
    · next hnil =>
      by_cases hc : (intvec_intersect s (decode (fc last))).length ≠ 0
      · rw [if_pos hc] at hnil
        rw [hnil] at hc
        exact absurd rfl hc
      · rw [if_neg hc] at hnil
        exact absurd hnil (hne s (List.mem_cons_self _ _))
    · next w ws _ =>
      have h2 := ih w (fun q hq => hne q (List.mem_cons_of_mem s hq))
      rcases Option.isSome_iff_exists.mp h2 with ⟨out2, hout⟩
      rw [hout]
      rfl

/-- Claim C10: (a) every bucket built by `wordgraph_init`'s word loop holds
at least one word id (buckets are created only when a word is inserted);
(b) backward narrowing keeps every candidate set non-empty (a narrowed set
replaces the original only when non-empty, the last set is kept as is);
(c) consequently the forward pass, which reads element 0 of the intersection
or of the candidate set, never hits the fatal out-of-range abort of
`intvec_get` (modelled by `forwardPass` returning `none`). -/
theorem c10_nonempty_candidates :
    (∀ (ws : List (List Char)) (i : Int) (bs bs2 : List (List Char × List Int)),
      (∀ pb ∈ bs, pb.2 ≠ []) → buildPrefixes ws i bs = .ok bs2 →
      ∀ pb ∈ bs2, pb.2 ≠ []) ∧
    (∀ (fc : Int → List Nat) (sets : List (List Int)), (∀ s ∈ sets, s ≠ []) →
      ∀ t ∈ (backwardPass fc sets).1, t ≠ []) ∧
    (∀ (fc : Int → List Nat) (sets : List (List Int)) (last : Int),
      (∀ s ∈ sets, s ≠ []) → (forwardPass fc last sets).isSome) :=
  ⟨buildPrefixes_nonempty,
    fun fc sets h => backwardPass_nonempty fc sets h,
    fun fc sets last h => forwardPass_isSome fc sets last h⟩

/-- Witness for C10: part (a) at an already-full bucket table of 1024
single-id buckets with no words left to read, parts (b) and (c) at the
one-position chain `[[5]]` with empty follower strings. -/
theorem c10_nonempty_candidates_witness :
    ((∀ pb ∈ List.replicate 1024 ((['a', 'b', 'c'], [(1 : Int)])), pb.2 ≠ []) ∧
      buildPrefixes [] 1 (List.replicate 1024 ((['a', 'b', 'c'], [(1 : Int)]))) =
        .ok (List.replicate 1024 ((['a', 'b', 'c'], [(1 : Int)]))) ∧
      (∀ pb ∈ List.replicate 1024 ((['a', 'b', 'c'], [(1 : Int)])), pb.2 ≠ [])) ∧
    ((∀ s ∈ [[(5 : Int)]], s ≠ []) ∧
      (∀ t ∈ (backwardPass (fun _ => []) [[(5 : Int)]]).1, t ≠ []) ∧
      (forwardPass (fun _ => []) 0 [[(5 : Int)]]).isSome) := by
  have hb : (∀ pb ∈ List.replicate 1024 ((['a', 'b', 'c'], [(1 : Int)])), pb.2 ≠ []) := by
    intro pb hpb
    rw [List.eq_of_mem_replicate hpb]
    simp
  have hok : buildPrefixes [] 1 (List.replicate 1024 ((['a', 'b', 'c'], [(1 : Int)]))) =
      .ok (List.replicate 1024 ((['a', 'b', 'c'], [(1 : Int)]))) := by
    rw [buildPrefixes, List.length_replicate, if_pos (show (1024 : Nat) = MAX_PREFIXES from rfl)]
  have hs : ∀ s ∈ [[(5 : Int)]], s ≠ [] := by decide
  exact ⟨⟨hb, hok, c10_nonempty_candidates.1 [] 1 _ _ hb hok⟩,
    ⟨hs, c10_nonempty_candidates.2.1 (fun _ => []) [[(5 : Int)]] hs,
      c10_nonempty_candidates.2.2 (fun _ => []) [[(5 : Int)]] 0 hs⟩⟩

theorem backwardPass_cons_nil (fc : Int → List Nat) (s : List Int) (rest : List (List Int))
    (h : (backwardPass fc rest).1 = []) :
    backwardPass fc (s :: rest) = ([s], (backwardPass fc rest).2 + 1) := by
  rw [backwardPass]
  rcases hrec : backwardPass fc rest with ⟨rest2, m⟩
  rw [hrec] at h
  simp only at h
  subst h
  rfl

theorem backwardPass_cons_cons (fc : Int → List Nat) (s : List Int) (rest : List (List Int))
    (next : List Int) (tl : List (List Int))
    (h : (backwardPass fc rest).1 = next :: tl) :
    backwardPass fc (s :: rest) =
      (if (backstep fc s next).length ≠ 0
        then (backstep fc s next :: next :: tl, (backwardPass fc rest).2)
        else (s :: next :: tl, (backwardPass fc rest).2 + 1)) := by
  rw [backwardPass]
  rcases hrec : backwardPass fc rest with ⟨rest2, m⟩
  rw [hrec] at h
  simp only at h
  subst h
  rfl

theorem backwardPass_rest_ne_nil (fc : Int → List Nat) (rest : List (List Int))
    (hlen : (backwardPass fc rest).1.length = rest.length) (h : rest ≠ []) :
    (backwardPass fc rest).1 ≠ [] := by
  intro hcon
  rw [hcon] at hlen
  exact h (List.length_eq_zero.mp hlen.symm)

theorem backwardPass_length (fc : Int → List Nat) :
    ∀ (sets : List (List Int)), (backwardPass fc sets).1.length = sets.length := by
  intro sets
  induction sets with
  | nil => rfl
  | cons s rest ih =>
    rcases hrec : (backwardPass fc rest).1 with _ | ⟨next, tl⟩
    · rw [backwardPass_cons_nil fc s rest hrec]
      rw [hrec] at ih
      simp only [List.length_nil] at ih
      simp only [List.length_cons, List.length_nil]
      omega
    · rw [backwardPass_cons_cons fc s rest next tl hrec]
      rw [hrec] at ih
      by_cases hc : (backstep fc s next).length ≠ 0
      · rw [if_pos hc]
        simp only [List.length_cons] at ih ⊢
        omega
      · rw [if_neg hc]
        simp only [List.length_cons] at ih ⊢
        omega

theorem backwardPass_last (fc : Int → List Nat) :
    ∀ (sets : List (List Int)), sets ≠ [] →
      (backwardPass fc sets).1.getLast? = sets.getLast? := by
  intro sets
  induction sets with
  | nil => intro h; exact absurd rfl h
  | cons s rest ih =>
    intro _
    rcases hrec : (backwardPass fc rest).1 with _ | ⟨next, tl⟩
    · rw [backwardPass_cons_nil fc s rest hrec]
      have hlen := backwardPass_length fc rest
      rw [hrec] at hlen
      simp only [List.length_nil] at hlen
      have hre : rest = [] := List.length_eq_zero.mp hlen.symm
      subst hre
      rfl
    · have hlen := backwardPass_length fc rest
      rw [hrec] at hlen
      have hrest : rest ≠ [] := by
        intro hcon
        subst hcon
        simp at hlen
      have ihl : (next :: tl).getLast? = rest.getLast? := by
        rw [← hrec]
        exact ih hrest
      rcases List.exists_cons_of_ne_nil hrest with ⟨z, zs, hz⟩
      rw [backwardPass_cons_cons fc s rest next tl hrec]
      by_cases hc : (backstep fc s next).length ≠ 0
      · rw [if_pos hc]
        simp only
        rw [List.getLast?_cons_cons, ihl]
        subst hz
        rw [List.getLast?_cons_cons]
      · rw [if_neg hc]
        simp only
        rw [List.getLast?_cons_cons, ihl]
        subst hz
        rw [List.getLast?_cons_cons]

theorem backwardPass_pos (fc : Int → List Nat) :
    ∀ (sets : List (List Int)) (i : Nat), i + 1 < sets.length →
      (backwardPass fc sets).1.getD i [] =
        (if backstep fc (sets.getD i []) ((backwardPass fc sets).1.getD (i + 1) []) = []
          then sets.getD i []
          else backstep fc (sets.getD i []) ((backwardPass fc sets).1.getD (i + 1) [])) := by
  intro sets
  induction sets with
  | nil =>
    intro i hi
    exact absurd hi (by simp)
  | cons s rest ih =>
    intro i hi
    rcases hrec : (backwardPass fc rest).1 with _ | ⟨next, tl⟩
    · exfalso
      have hlen := backwardPass_length fc rest
      rw [hrec] at hlen
      simp only [List.length_nil] at hlen
      have hre : rest = [] := List.length_eq_zero.mp hlen.symm
      subst hre
      simp at hi
    · rw [backwardPass_cons_cons fc s rest next tl hrec]
      match i with
      | 0 =>
        by_cases hc : backstep fc s next = []
        · rw [if_neg (by rw [hc]; simp)]
          simp only [List.getD_cons_zero, List.getD_cons_succ]
          rw [if_pos hc]
        · rw [if_pos (by intro hcon; exact hc (List.length_eq_zero.mp hcon))]
          simp only [List.getD_cons_zero, List.getD_cons_succ]
          rw [if_neg hc]
      | j + 1 =>
        have hj : j + 1 < rest.length := by
          simp only [List.length_cons] at hi
          omega
        have ihj := ih j hj
        rw [hrec] at ihj
        by_cases hc : (backstep fc s next).length ≠ 0
        · rw [if_pos hc]
          simp only [List.getD_cons_succ]
          exact ihj
        · rw [if_neg hc]
          simp only [List.getD_cons_succ]
          exact ihj

theorem backwardPass_count (fc : Int → List Nat) :
    ∀ (sets : List (List Int)), sets ≠ [] →
      (backwardPass fc sets).2 = 1 +
        (List.range (sets.length - 1)).countP
          (fun i =>
            decide (backstep fc (sets.getD i [])
              ((backwardPass fc sets).1.getD (i + 1) []) = [])) := by
  intro sets
  induction sets with
  | nil => intro h; exact absurd rfl h
  | cons s rest ih =>
    intro _
    rcases hrec : (backwardPass fc rest).1 with _ | ⟨next, tl⟩
    · have hlen := backwardPass_length fc rest
      rw [hrec] at hlen
      simp only [List.length_nil] at hlen
      have hre : rest = [] := List.length_eq_zero.mp hlen.symm
      subst hre
      rw [backwardPass_cons_nil fc s [] hrec]
      rw [show backwardPass fc ([] : List (List Int)) = ([], 0) from rfl]
      rw [show List.range (([s] : List (List Int)).length - 1) = [] from rfl]
      rw [List.countP_nil]
    · have hlen := backwardPass_length fc rest
      rw [hrec] at hlen
      have hrest : rest ≠ [] := by
        intro hcon
        subst hcon
        simp at hlen
      have ihm : (backwardPass fc rest).2 = 1 + (List.range (rest.length - 1)).countP
          (fun i => decide (backstep fc (rest.getD i []) ((next :: tl).getD (i + 1) []) = [])) := by
        have h2 := ih hrest
        rw [hrec] at h2
        exact h2
      have hrlen : rest.length = (rest.length - 1) + 1 := by
        rcases List.exists_cons_of_ne_nil hrest with ⟨z, zs, hz⟩
        subst hz
        simp
      have hrange : List.range ((s :: rest).length - 1) =
          0 :: (List.range (rest.length - 1)).map Nat.succ := by
        simp only [List.length_cons, Nat.add_sub_cancel]
        rw [hrlen]
        exact List.range_succ_eq_map _
      rw [backwardPass_cons_cons fc s rest next tl hrec]
      by_cases hc : (backstep fc s next).length ≠ 0
      · rw [if_pos hc]
        simp only
        rw [hrange, List.countP_cons, List.countP_map]
        have hterm : (decide (backstep fc (((s :: rest) : List (List Int)).getD 0 [])
            (((backstep fc s next :: next :: tl) : List (List Int)).getD 1 []) = []) : Bool)
            = false := by
          simp only [List.getD_cons_zero, List.getD_cons_succ]
          rw [decide_eq_false_iff_not]
          intro hcon
          rw [hcon] at hc
          exact hc rfl
        have hcong : (List.range (rest.length - 1)).countP
            ((fun i => decide (backstep fc (((s :: rest) : List (List Int)).getD i [])
              (((backstep fc s next :: next :: tl) : List (List Int)).getD (i + 1) []) = []))
                ∘ Nat.succ) =
            (List.range (rest.length - 1)).countP
            (fun i => decide (backstep fc (rest.getD i [])
              ((next :: tl).getD (i + 1) []) = [])) := by
          apply List.countP_congr
          intro a _
          simp only [Function.comp_apply, List.getD_cons_succ]
        rw [hcong, hterm, ihm]
        simp only [Bool.false_eq_true, if_false]
        omega
      · rw [if_neg hc]
        simp only
        rw [hrange, List.countP_cons, List.countP_map]
        have hbs : backstep fc s next = [] := by
          by_contra hcon
          exact hc (fun h0 => hcon (List.length_eq_zero.mp h0))
        have hterm : (decide (backstep fc (((s :: rest) : List (List Int)).getD 0 [])
            (((s :: next :: tl) : List (List Int)).getD 1 []) = []) : Bool) = true := by
          simp only [List.getD_cons_zero, List.getD_cons_succ]
          rw [decide_eq_true_eq]
          exact hbs
        have hcong : (List.range (rest.length - 1)).countP
            ((fun i => decide (backstep fc (((s :: rest) : List (List Int)).getD i [])
              (((s :: next :: tl) : List (List Int)).getD (i + 1) []) = []))
                ∘ Nat.succ) =
            (List.range (rest.length - 1)).countP
            (fun i => decide (backstep fc (rest.getD i [])
              ((next :: tl).getD (i + 1) []) = [])) := by
          apply List.countP_congr
          intro a _
          simp only [Function.comp_apply, List.getD_cons_succ]
        rw [hcong, hterm, ihm]
        simp only [if_true]
        omega

/-- Unfolding of the forward pass on a non-empty chain. -/
theorem forwardPass_cons (fc : Int → List Nat) (last : Int) (s : List Int)
    (rest : List (List Int)) :
    forwardPass fc last (s :: rest) =
      (match (if (intvec_intersect s (decode (fc last))).length ≠ 0
          then intvec_intersect s (decode (fc last)) else s) with
        | [] => none
        | w :: _ => (forwardPass fc w rest).map (w :: ·)) := by
  rw [forwardPass]

/-- Two-word corpus instance for C2: word 1 (word A)'s encoded follower
string is the single varint byte 1, which decodes to `[2]` (word B's id);
word 2 and the sentinel have empty follower strings. -/
def fcAB : Int → List Nat := fun w => if w = 1 then [1] else []

theorem fcAB_decode_one : decode (fcAB 1) = [2] := by decide

theorem fcAB_intersect_21 : intvec_intersect [2] (decode (fcAB 1)) = [2] := by
  rw [fcAB_decode_one, intvec_intersect]
  norm_num
  rw [intvec_intersect]

theorem fcAB_intersect_12 : intvec_intersect [1] (decode (fcAB 1)) = [] := by
  rw [fcAB_decode_one, intvec_intersect]
  norm_num
  rw [intvec_intersect]

theorem fcAB_backstep : backstep fcAB [1] [2] = [1] := by
  rw [backstep, List.filter_cons]
  rw [show (decide ((intvec_intersect [2] (decode (fcAB 1))).length ≠ 0) : Bool) = true from by
    rw [fcAB_intersect_21]
    decide]
  rw [if_pos rfl]
  rfl

theorem fcAB_backward : backwardPass fcAB [[1], [2]] = ([[1], [2]], 1) := by
  have h1 : backwardPass fcAB [[2]] = ([[2]], 1) := by
    rw [backwardPass_cons_nil fcAB [2] [] rfl]
    rfl
  have h0 : (backwardPass fcAB [[2]]).1 = [2] :: [] := by
    rw [h1]
  rw [backwardPass_cons_cons fcAB [1] [[2]] [2] [] h0, fcAB_backstep,
    if_pos (by norm_num), h1]

theorem fcAB_forward : forwardPass fcAB 1 [[1], [2]] = some [1, 2] := by
  have hf2 : forwardPass fcAB 1 [[2]] = some [2] := by
    rw [forwardPass_cons, fcAB_intersect_21, if_pos (by norm_num)]
    rfl
  rw [forwardPass_cons, fcAB_intersect_12, if_neg (by norm_num)]
  change (forwardPass fcAB 1 [[2]]).map (fun x => 1 :: x) = some [1, 2]
  rw [hf2]
  rfl

/-- Counterexample to claim C2 as stated: on the two-word corpus with
follower link A → B, the length-2 chain with A's bucket at position 0 and
B's bucket at position 1, hooked at A, does select B at position 1 — but the
mismatch counter is 1, not 0: the loop increments `mismatch` at the last
position as well, because there `next_words` is NULL, `new_words` stays
empty and the `else` branch runs. -/
theorem c2_counterexample :
    (backwardPass fcAB [[1], [2]]).2 = 1 ∧ (1 : Nat) ≠ 0 ∧
      forwardPass fcAB 1 [[1], [2]] = some [1, 2] :=
  ⟨by rw [fcAB_backward], by omega, fcAB_forward⟩

/-- Claim C2 (amended): in the backward pass over a non-empty chain, the
last position is never narrowed, a position among the first L-1 is replaced
by its narrowing exactly when that narrowing is non-empty (the original set
being kept otherwise), and the mismatch counter equals ONE MORE than the
number of positions among the first L-1 whose narrowing would have
eliminated every candidate — the last position always contributes one
increment, since its `next_words` is NULL and its `new_words` stays empty.
In particular the two-word instance selects B at position 1 and reports
exactly one mismatch. -/
theorem c2_backward_mismatch :
    (∀ (fc : Int → List Nat) (sets : List (List Int)), sets ≠ [] →
      (backwardPass fc sets).1.length = sets.length ∧
      (backwardPass fc sets).1.getLast? = sets.getLast? ∧
      (∀ i, i + 1 < sets.length →
        (backwardPass fc sets).1.getD i [] =
          (if backstep fc (sets.getD i []) ((backwardPass fc sets).1.getD (i + 1) []) = []
            then sets.getD i []
            else backstep fc (sets.getD i []) ((backwardPass fc sets).1.getD (i + 1) []))) ∧
      (backwardPass fc sets).2 = 1 +
        (List.range (sets.length - 1)).countP
          (fun i =>
            decide (backstep fc (sets.getD i [])
              ((backwardPass fc sets).1.getD (i + 1) []) = []))) ∧
    backwardPass fcAB [[1], [2]] = ([[1], [2]], 1) ∧
    forwardPass fcAB 1 [[1], [2]] = some [1, 2] :=
  ⟨fun fc sets hne =>
    ⟨backwardPass_length fc sets, backwardPass_last fc sets hne,
      fun i hi => backwardPass_pos fc sets i hi, backwardPass_count fc sets hne⟩,
    fcAB_backward, fcAB_forward⟩

/-- Witness for the amended C2 at the two-word instance. -/
theorem c2_backward_mismatch_witness :
    (([[1], [2]] : List (List Int)) ≠ []) ∧
      (backwardPass fcAB [[1], [2]]).2 = 1 +
        (List.range (([[1], [2]] : List (List Int)).length - 1)).countP
          (fun i =>
            decide (backstep fcAB (([[1], [2]] : List (List Int)).getD i [])
              ((backwardPass fcAB [[1], [2]]).1.getD (i + 1) []) = [])) :=
  ⟨by simp, (c2_backward_mismatch.1 fcAB [[1], [2]] (by simp)).2.2.2⟩

/-- The classic Levenshtein edit distance: unit-cost insertions, deletions
and substitutions, no transpositions.  Specification-side definition for
claims C7 and C8. -/
def lev : List Char → List Char → Nat
  | [], b => b.length
  | a, [] => a.length
  | ac :: as, bc :: bs =>
    min (lev as (bc :: bs) + 1)
      (min (lev (ac :: as) bs + 1) (lev as bs + (if ac = bc then 0 else 1)))
termination_by a b => a.length + b.length
decreasing_by
  · simp only [List.length_cons]
    omega
  · simp only [List.length_cons]
    omega
  · simp only [List.length_cons]
    omega

theorem lev_nil_left (b : List Char) : lev [] b = b.length := by
  rw [lev]

theorem lev_nil_right (a : List Char) : lev a [] = a.length := by
  cases a with
  | nil => rw [lev_nil_left]
  | cons c cs => exact lev.eq_2 _ (by simp)

theorem lev_cons_cons (ac : Char) (as : List Char) (bc : Char) (bs : List Char) :
    lev (ac :: as) (bc :: bs) =
      min (lev as (bc :: bs) + 1)
        (min (lev (ac :: as) bs + 1) (lev as bs + (if ac = bc then 0 else 1))) := by
  rw [lev]

theorem lev_single_snoc (x y : Char) :
    ∀ (b : List Char),
      lev [x] (b ++ [y]) =
        min (b.length + 2)
          (min (lev [x] b + 1) (b.length + (if x = y then 0 else 1))) := by
  intro b
  induction b with
  | nil =>
    simp only [List.nil_append]
    rw [lev_cons_cons]
    simp only [lev_nil_left, lev_nil_right, List.length_nil, List.length_singleton]
  | cons b0 bs ih =>
    rw [List.cons_append, lev_cons_cons, ih, lev_cons_cons]
    simp only [lev_nil_left, lev_nil_right, List.length_append, List.length_cons,
      List.length_nil, List.length_singleton]
    split_ifs <;> omega

theorem lev_snoc_single (x y : Char) :
    ∀ (a : List Char),
      lev (a ++ [x]) [y] =
        min (lev a [y] + 1)
          (min (a.length + 2) (a.length + (if x = y then 0 else 1))) := by
  intro a
  induction a with
  | nil =>
    simp only [List.nil_append]
    rw [lev_cons_cons]
    simp only [lev_nil_left, lev_nil_right, List.length_nil, List.length_singleton]
  | cons a0 as ih =>
    rw [List.cons_append, lev_cons_cons, ih, lev_cons_cons]
    simp only [lev_nil_left, lev_nil_right, List.length_append, List.length_cons,
      List.length_nil, List.length_singleton]
    split_ifs <;> omega

set_option maxHeartbeats 1000000 in
theorem lev_snoc_snoc (n : Nat) :
    ∀ (a b : List Char), a.length + b.length ≤ n → ∀ (x y : Char),
      lev (a ++ [x]) (b ++ [y]) =
        min (lev a (b ++ [y]) + 1)
          (min (lev (a ++ [x]) b + 1) (lev a b + (if x = y then 0 else 1))) := by
  induction n with
  | zero =>
    intro a b hab x y
    have ha : a = [] := List.length_eq_zero.mp (by omega)
    have hb : b = [] := List.length_eq_zero.mp (by omega)
    subst ha
    subst hb
    simp only [List.nil_append]
    rw [lev_cons_cons]
  | succ k ih =>
    intro a b hab x y
    match a, b with
    | [], b =>
      simp only [List.nil_append]
      rw [lev_single_snoc]
      simp only [lev_nil_left, lev_nil_right, List.length_append,
        List.length_singleton]
      | a0 :: as, [] =>
      simp only [List.nil_append]
      rw [lev_snoc_single]
      simp only [lev_nil_left, lev_nil_right, List.length_append, List.length_cons,
        List.length_nil, List.length_singleton]
      | a0 :: as, b0 :: bs =>
      have hlen : as.length + bs.length ≤ k := by
        simp only [List.length_cons] at hab
        omega
      have hlen1 : as.length + (b0 :: bs).length ≤ k := by
        simp only [List.length_cons] at hab ⊢
        omega
      have hlen2 : (a0 :: as).length + bs.length ≤ k := by
        simp only [List.length_cons] at hab ⊢
        omega
      rw [List.cons_append a0 as [x], List.cons_append b0 bs [y]]
      rw [lev_cons_cons a0 (as ++ [x]) b0 (bs ++ [y])]
      rw [lev_cons_cons a0 as b0 (bs ++ [y]), lev_cons_cons a0 (as ++ [x]) b0 bs,
        lev_cons_cons a0 as b0 bs]
      have e1 : lev (as ++ [x]) (b0 :: (bs ++ [y])) =
          min (lev as (b0 :: (bs ++ [y])) + 1)
            (min (lev (as ++ [x]) (b0 :: bs) + 1)
              (lev as (b0 :: bs) + (if x = y then 0 else 1))) := by
        have h := ih as (b0 :: bs) hlen1 x y
        simpa only [List.cons_append] using h
      have e2 : lev (a0 :: (as ++ [x])) (bs ++ [y]) =
          min (lev (a0 :: as) (bs ++ [y]) + 1)
            (min (lev (a0 :: (as ++ [x])) bs + 1)
              (lev (a0 :: as) bs + (if x = y then 0 else 1))) := by
        have h := ih (a0 :: as) bs hlen2 x y
        simpa only [List.cons_append] using h
      have e3 : lev (as ++ [x]) (bs ++ [y]) =
          min (lev as (bs ++ [y]) + 1)
            (min (lev (as ++ [x]) bs + 1) (lev as bs + (if x = y then 0 else 1))) :=
        ih as bs hlen x y
      rw [e1, e2, e3]
      generalize (if x = y then (0 : Nat) else 1) = cx
      generalize (if a0 = b0 then (0 : Nat) else 1) = c0
      simp only [← min_add_add_right]
      apply le_antisymm
      · simp only [le_min_iff, min_le_iff]
        omega
      · simp only [le_min_iff, min_le_iff]
        omega

theorem lev_rev (n : Nat) :
    ∀ (a b : List Char), a.length + b.length ≤ n →
      lev a.reverse b.reverse = lev a b := by
  induction n with
  | zero =>
    intro a b hab
    have ha : a = [] := List.length_eq_zero.mp (by omega)
    have hb : b = [] := List.length_eq_zero.mp (by omega)
    subst ha
    subst hb
    rfl
  | succ k ih =>
    intro a b hab
    match a, b with
    | [], b =>
      rw [List.reverse_nil, lev_nil_left, lev_nil_left, List.length_reverse]
    | a, [] =>
      rw [List.reverse_nil, lev_nil_right, lev_nil_right, List.length_reverse]
    | a0 :: as, b0 :: bs =>
      rw [List.reverse_cons, List.reverse_cons]
      rw [lev_snoc_snoc (as.reverse.length + bs.reverse.length) as.reverse bs.reverse
        (by omega) a0 b0]
      rw [← List.reverse_cons, ← List.reverse_cons]
      have hlen : as.length + bs.length ≤ k := by
        simp only [List.length_cons] at hab
        omega
      have hlen1 : as.length + (b0 :: bs).length ≤ k := by
        simp only [List.length_cons] at hab ⊢
        omega
      have hlen2 : (a0 :: as).length + bs.length ≤ k := by
        simp only [List.length_cons] at hab ⊢
        omega
      rw [ih as (b0 :: bs) hlen1, ih (a0 :: as) bs hlen2, ih as bs hlen]
      rw [lev_cons_cons]

theorem lev_comm (n : Nat) :
    ∀ (a b : List Char), a.length + b.length ≤ n → lev a b = lev b a := by
  induction n with
  | zero =>
    intro a b hab
    have ha : a = [] := List.length_eq_zero.mp (by omega)
    have hb : b = [] := List.length_eq_zero.mp (by omega)
    subst ha
    subst hb
    rfl
  | succ k ih =>
    intro a b hab
    match a, b with
    | [], b => rw [lev_nil_left, lev_nil_right]
    | a, [] => rw [lev_nil_left, lev_nil_right]
    | a0 :: as, b0 :: bs =>
      have hlen : as.length + bs.length ≤ k := by
        simp only [List.length_cons] at hab
        omega
      have hlen1 : as.length + (b0 :: bs).length ≤ k := by
        simp only [List.length_cons] at hab ⊢
        omega
      have hlen2 : (a0 :: as).length + bs.length ≤ k := by
        simp only [List.length_cons] at hab ⊢
        omega
      rw [lev_cons_cons, lev_cons_cons]
      rw [ih as (b0 :: bs) hlen1, ih (a0 :: as) bs hlen2, ih as bs hlen]
      by_cases hc : a0 = b0
      · rw [if_pos hc, if_pos hc.symm]
        omega
      · rw [if_neg hc, if_neg (fun h => hc h.symm)]
        omega

theorem lev_length_lb (n : Nat) :
    ∀ (a b : List Char), a.length + b.length ≤ n →
      a.length ≤ b.length + lev a b ∧ b.length ≤ a.length + lev a b := by
  induction n with
  | zero =>
    intro a b hab
    have ha : a = [] := List.length_eq_zero.mp (by omega)
    have hb : b = [] := List.length_eq_zero.mp (by omega)
    subst ha
    subst hb
    simp [lev_nil_left]
  | succ k ih =>
    intro a b hab
    match a, b with
    | [], b =>
      rw [lev_nil_left]
      simp
    | a, [] =>
      rw [lev_nil_right]
      simp
    | a0 :: as, b0 :: bs =>
      have hlen : as.length + bs.length ≤ k := by
        simp only [List.length_cons] at hab
        omega
      have hlen1 : as.length + (b0 :: bs).length ≤ k := by
        simp only [List.length_cons] at hab ⊢
        omega
      have hlen2 : (a0 :: as).length + bs.length ≤ k := by
        simp only [List.length_cons] at hab ⊢
        omega
      have h1 := ih as (b0 :: bs) hlen1
      have h2 := ih (a0 :: as) bs hlen2
      have h3 := ih as bs hlen
      rw [lev_cons_cons]
      simp only [List.length_cons] at h1 h2 h3 ⊢
      split_ifs <;> omega

theorem lev_replicate_lb (n : Nat) (c : Char) (w : List Char) :
    n ≤ w.length + lev (List.replicate n c) w := by
  have h := (lev_length_lb ((List.replicate n c).length + w.length)
      (List.replicate n c) w (le_refl _)).1
  rw [List.length_replicate] at h
  exact h

theorem lev_replicate_not_lt (n : Nat) (c : Char) (w : List Char) (k : Nat)
    (h : k + w.length ≤ n) : ¬ lev (List.replicate n c) w < k := by
  have hlb := lev_replicate_lb n c w
  omega

/-- The inner row update of `edit_distance` (abbrase.c lines 256-264):
walk the first string and the previous cost row in step, carrying
`prevdiag` (the old `cost[j-1]`) and the freshly written `cost[j-1]`. -/
def distRowGo (bc : Char) : List Char → List Nat → Nat → Nat → List Nat
  | [], _, _, _ => []
  | _ :: _, [], _, _ => []
  | ac :: as, up :: oldrest, prevdiag, left =>
    min (up + 1) (min (left + 1) (prevdiag + (if ac = bc then 0 else 1))) ::
      distRowGo bc as oldrest up
        (min (up + 1) (min (left + 1) (prevdiag + (if ac = bc then 0 else 1))))

/-- The outer loop of `edit_distance` (abbrase.c lines 252-265) over the
second string, threading the cost row; `i` is the outer index, written into
`cost[0]`. -/
def distLoop (a : List Char) : List Char → List Nat → Nat → List Nat
  | [], row, _ => row
  | bc :: bs, row, i =>
    distLoop a bs (i :: distRowGo bc a row.tail row.headI i) (i + 1)

/-- `edit_distance` after the swap: row initialized to `cost[j] = j`, outer
index starting at 1, result `cost[n]` (the row's last entry). -/
def edit_distance_go (a b : List Char) : Nat :=
  (distLoop a b (List.range (a.length + 1)) 1).getLastD 0

/-- `edit_distance` (abbrase.c lines 224-268): swap the strings so the row
is indexed by the shorter one, then run the two-loop dynamic program. -/
def edit_distance (a b : List Char) : Nat :=
  if a.length > b.length then edit_distance_go b a else edit_distance_go a b

/-- The cost row contents as Levenshtein distances: entry for each further
character `c` of the first string extends the reversed processed prefix `p`;
`y` is the reversed processed prefix of the second string. -/
def levRow (y : List Char) : List Char → List Char → List Nat
  | _, [] => []
  | p, c :: cs => lev (c :: p) y :: levRow y (c :: p) cs

theorem distRowGo_levRow (bc : Char) :
    ∀ (asuf p y : List Char),
      distRowGo bc asuf (levRow y p asuf) (lev p y) (lev p (bc :: y)) =
        levRow (bc :: y) p asuf := by
  intro asuf
  induction asuf with
  | nil =>
    intro p y
    rw [levRow, levRow, distRowGo]
  | cons c cs ih =>
    intro p y
    rw [levRow, levRow, distRowGo]
    have hcur : min (lev (c :: p) y + 1)
        (min (lev p (bc :: y) + 1) (lev p y + (if c = bc then 0 else 1))) =
        lev (c :: p) (bc :: y) := by
      rw [lev_cons_cons]
      exact min_left_comm _ _ _
    rw [hcur, ih (c :: p) y]

theorem distLoop_levRow (a : List Char) :
    ∀ (bs y : List Char) (i : Nat), i = y.length + 1 →
      distLoop a bs (lev [] y :: levRow y [] a) i =
        lev [] (bs.reverse ++ y) :: levRow (bs.reverse ++ y) [] a := by
  intro bs
  induction bs with
  | nil =>
    intro y i _
    rw [distLoop, List.reverse_nil, List.nil_append]
  | cons bc bs2 ih =>
    intro y i hi
    rw [distLoop]
    have htail : (lev [] y :: levRow y [] a).tail = levRow y [] a := rfl
    have hhead : (lev [] y :: levRow y [] a).headI = lev [] y := rfl
    rw [htail, hhead]
    have hi2 : i = lev [] (bc :: y) := by
      rw [lev_nil_left, List.length_cons, hi]
    rw [show (i :: distRowGo bc a (levRow y [] a) (lev [] y) i : List Nat) =
        lev [] (bc :: y) ::
          distRowGo bc a (levRow y [] a) (lev [] y) (lev [] (bc :: y)) from by
      rw [← hi2]]
    rw [distRowGo_levRow bc a [] y]
    rw [ih (bc :: y) (i + 1) (by rw [hi, List.length_cons])]
    rw [List.reverse_cons, List.append_assoc, List.singleton_append]

theorem levRow_nil_y :
    ∀ (asuf p : List Char), levRow [] p asuf = List.range' (p.length + 1) asuf.length := by
  intro asuf
  induction asuf with
  | nil =>
    intro p
    rw [levRow]
    rfl
  | cons c cs ih =>
    intro p
    rw [levRow, lev_nil_right, ih (c :: p)]
    rw [List.length_cons, List.length_cons, List.range'_succ]

theorem levRow_getLastD (y : List Char) :
    ∀ (asuf p : List Char) (d : Nat),
      (lev p y :: levRow y p asuf).getLastD d = lev (asuf.reverse ++ p) y := by
  intro asuf
  induction asuf with
  | nil =>
    intro p d
    rw [levRow, List.reverse_nil, List.nil_append]
    rfl
  | cons c cs ih =>
    intro p d
    rw [levRow, List.getLastD_cons, ih (c :: p) (lev p y), List.reverse_cons,
      List.append_assoc, List.singleton_append]

theorem edit_distance_go_eq_lev (a b : List Char) :
    edit_distance_go a b = lev a.reverse b.reverse := by
  rw [edit_distance_go]
  have hinit : List.range (a.length + 1) = lev [] [] :: levRow [] [] a := by
    rw [levRow_nil_y a []]
    rw [show lev [] [] = 0 from by rw [lev_nil_left]; rfl]
    rw [List.range_eq_range', List.range'_succ]
    rfl
  rw [hinit, distLoop_levRow a b [] 1 (by rfl), List.append_nil,
    levRow_getLastD b.reverse a []]
  rw [List.append_nil]

theorem edit_distance_eq_lev (a b : List Char) : edit_distance a b = lev a b := by
  rw [edit_distance]
  by_cases h : a.length > b.length
  · rw [if_pos h, edit_distance_go_eq_lev,
      lev_rev (b.length + a.length) b a (by omega),
      lev_comm (b.length + a.length) b a (by omega)]
  · rw [if_neg h, edit_distance_go_eq_lev, lev_rev (a.length + b.length) a b (by omega)]

/-- The scan of `wordgraph_find_word` (abbrase.c lines 271-281): walk the
dictionary words of ids `1..n_words-1` keeping the first id whose distance
to the query strictly improves on the running best. -/
def findGo (q : List Char) : List (List Char) → Nat → Nat → Nat → Nat
  | [], _, best, _ => best
  | w :: rest, i, best, bestd =>
    if edit_distance q w < bestd then findGo q rest (i + 1) i (edit_distance q w)
    else findGo q rest (i + 1) best bestd

/-- `wordgraph_find_word` (abbrase.c lines 271-281): `best_word = 0`,
`best_dist = 10000`, ids starting at 1. -/
def wordgraph_find_word (ws : List (List Char)) (q : List Char) : Nat :=
  findGo q ws 1 0 10000

theorem findGo_cons (q w : List Char) (rest : List (List Char)) (i best bestd : Nat) :
    findGo q (w :: rest) i best bestd =
      (if edit_distance q w < bestd then findGo q rest (i + 1) i (edit_distance q w)
        else findGo q rest (i + 1) best bestd) := by
  rw [findGo]

theorem findGo_no_improve (q : List Char) :
    ∀ (rest : List (List Char)) (i best bestd : Nat),
      (∀ j, j < rest.length → ¬ edit_distance q (rest.getD j []) < bestd) →
      findGo q rest i best bestd = best := by
  intro rest
  induction rest with
  | nil =>
    intro i best bestd _
    rw [findGo]
  | cons w rest2 ih =>
    intro i best bestd h
    rw [findGo_cons, if_neg (by simpa using h 0 (by simp))]
    refine ih (i + 1) best bestd ?_
    intro j hj
    have := h (j + 1) (by simp only [List.length_cons]; omega)
    simpa using this

theorem findGo_improve (q : List Char) :
    ∀ (rest : List (List Char)) (i best bestd : Nat),
      (∃ j, j < rest.length ∧ edit_distance q (rest.getD j []) < bestd) →
      ∃ j0, j0 < rest.length ∧ findGo q rest i best bestd = i + j0 ∧
        edit_distance q (rest.getD j0 []) < bestd ∧
        (∀ t, t < rest.length →
          edit_distance q (rest.getD j0 []) ≤ edit_distance q (rest.getD t [])) ∧
        (∀ t, t < j0 →
          edit_distance q (rest.getD j0 []) < edit_distance q (rest.getD t [])) := by
  intro rest
  induction rest with
  | nil =>
    intro i best bestd h
    rcases h with ⟨j, hj, _⟩
    exact absurd hj (by simp)
  | cons w rest2 ih =>
    intro i best bestd h
    by_cases h0 : edit_distance q w < bestd
    · rw [findGo_cons, if_pos h0]
      by_cases h1 : ∃ j, j < rest2.length ∧
          edit_distance q (rest2.getD j []) < edit_distance q w
      · rcases ih (i + 1) i (edit_distance q w) h1 with
          ⟨j1, hj1, heq, hlt, hmin, hstrict⟩
        refine ⟨j1 + 1, by simp only [List.length_cons]; omega, by omega, ?_, ?_, ?_⟩
        · simp only [List.getD_cons_succ]
          omega
        · intro t ht
          match t with
          | 0 =>
            simp only [List.getD_cons_succ, List.getD_cons_zero]
            omega
          | t2 + 1 =>
            simp only [List.getD_cons_succ]
            exact hmin t2 (by simp only [List.length_cons] at ht; omega)
        · intro t ht
          match t with
          | 0 =>
            simp only [List.getD_cons_succ, List.getD_cons_zero]
            omega
          | t2 + 1 =>
            simp only [List.getD_cons_succ]
            exact hstrict t2 (by omega)
      · push_neg at h1
        rw [findGo_no_improve q rest2 (i + 1) i (edit_distance q w)
          (fun j hj => by have := h1 j hj; omega)]
        refine ⟨0, by simp, by omega, by simpa using h0, ?_, ?_⟩
        · intro t ht
          match t with
          | 0 => exact le_refl _
          | t2 + 1 =>
            simp only [List.getD_cons_succ, List.getD_cons_zero]
            have := h1 t2 (by simp only [List.length_cons] at ht; omega)
            omega
        · intro t ht
          exact absurd ht (by omega)
    · rw [findGo_cons, if_neg h0]
      have h1 : ∃ j, j < rest2.length ∧ edit_distance q (rest2.getD j []) < bestd := by
        rcases h with ⟨j, hj, hlt⟩
        match j with
        | 0 => exact absurd (by simpa using hlt) h0
        | j2 + 1 =>
          refine ⟨j2, by simp only [List.length_cons] at hj; omega, ?_⟩
          simpa using hlt
      rcases ih (i + 1) best bestd h1 with ⟨j1, hj1, heq, hlt, hmin, hstrict⟩
      refine ⟨j1 + 1, by simp only [List.length_cons]; omega, by omega, ?_, ?_, ?_⟩
      · simp only [List.getD_cons_succ]
        omega
      · intro t ht
        match t with
        | 0 =>
          simp only [List.getD_cons_succ, List.getD_cons_zero]
          omega
        | t2 + 1 =>
          simp only [List.getD_cons_succ]
          exact hmin t2 (by simp only [List.length_cons] at ht; omega)
      · intro t ht
        match t with
        | 0 =>
          simp only [List.getD_cons_succ, List.getD_cons_zero]
          omega
        | t2 + 1 =>
          simp only [List.getD_cons_succ]
          exact hstrict t2 (by omega)

/-- Counterexample to claim C7 as stated: `best_dist` starts at 10000, so a
query whose distance to every word is at least 10000 (here a 10001-character
query against the one-word dictionary `a`, distance at least 10000 by the
length gap) never updates `best_word`, and `wordgraph_find_word` returns the
sentinel 0 instead of the minimizing id 1. -/
theorem c7_find_nearest_counterexample :
    wordgraph_find_word [['a']] (List.replicate 10001 'a') = 0 ∧ (0 : Nat) ≠ 1 := by
  have hge : ¬ edit_distance (List.replicate 10001 'a') ['a'] < 10000 := by
    rw [edit_distance_eq_lev]
    exact lev_replicate_not_lt 10001 'a' ['a'] 10000 (by norm_num)
  constructor
  · rw [wordgraph_find_word]
    refine findGo_no_improve (List.replicate 10001 'a') [['a']] 1 0 10000 ?_
    intro j hj
    match j with
    | 0 => exact hge
  · omega

/-- Claim C7 (amended): whenever some dictionary word is at Levenshtein
distance below the initial best-distance bound 10000 from the query — in
particular whenever the query equals a dictionary word — `find_nearest`
returns the smallest id in `[1, n_words)` whose word minimizes the classic
Levenshtein edit distance to the query: the result `r` is a real id, its
word's distance is a minimum over all words, and every smaller id has a
strictly larger distance. -/
theorem c7_find_nearest (ws : List (List Char)) (q : List Char)
    (h : ∃ j, j < ws.length ∧ lev q (ws.getD j []) < 10000) :
    1 ≤ wordgraph_find_word ws q ∧ wordgraph_find_word ws q ≤ ws.length ∧
      (∀ t, t < ws.length →
        lev q (ws.getD (wordgraph_find_word ws q - 1) []) ≤ lev q (ws.getD t [])) ∧
      (∀ t, t + 1 < wordgraph_find_word ws q →
        lev q (ws.getD (wordgraph_find_word ws q - 1) []) < lev q (ws.getD t [])) := by
  have h2 : ∃ j, j < ws.length ∧ edit_distance q (ws.getD j []) < 10000 := by
    rcases h with ⟨j, hj, hlt⟩
    exact ⟨j, hj, by rw [edit_distance_eq_lev]; exact hlt⟩
  rcases findGo_improve q ws 1 0 10000 h2 with ⟨j0, hj0, heq, _, hmin, hstrict⟩
  have hw : wordgraph_find_word ws q = 1 + j0 := by
    rw [wordgraph_find_word]
    exact heq
  have hw1 : wordgraph_find_word ws q - 1 = j0 := by omega
  refine ⟨by omega, by omega, ?_, ?_⟩
  · intro t ht
    rw [hw1, ← edit_distance_eq_lev, ← edit_distance_eq_lev]
    exact hmin t ht
  · intro t ht
    rw [hw1, ← edit_distance_eq_lev, ← edit_distance_eq_lev]
    exact hstrict t (by omega)

/-- Witness for the amended C7: the query `b` against the dictionary
`a, b` (ids 1 and 2). -/
theorem c7_find_nearest_witness :
    lev ['b'] (([['a'], ['b']] : List (List Char)).getD 1 []) < 10000 ∧
      1 ≤ wordgraph_find_word [['a'], ['b']] ['b'] ∧
      wordgraph_find_word [['a'], ['b']] ['b'] ≤ ([['a'], ['b']] : List (List Char)).length := by
  have hh : lev ['b'] (([['a'], ['b']] : List (List Char)).getD 1 []) < 10000 := by
    rw [← edit_distance_eq_lev]
    decide
  have hc := c7_find_nearest [['a'], ['b']] ['b'] ⟨1, by norm_num, hh⟩
  exact ⟨hh, hc.1, hc.2.1⟩

/-- Counterexample to claim C8 as stated: for the two-word dictionary
`a, b` and a 10001-character query, every distance is at least 10000
(the length gap), `best_word` is never updated, and the sentinel 0 is
returned although the dictionary is non-empty. -/
theorem c8_find_nonsentinel_counterexample :
    (([['a'], ['b']] : List (List Char)) ≠ []) ∧
      wordgraph_find_word [['a'], ['b']] (List.replicate 10001 'c') = 0 := by
  have hge1 : ¬ edit_distance (List.replicate 10001 'c') ['a'] < 10000 := by
    rw [edit_distance_eq_lev]
    exact lev_replicate_not_lt 10001 'c' ['a'] 10000 (by norm_num)
  have hge2 : ¬ edit_distance (List.replicate 10001 'c') ['b'] < 10000 := by
    rw [edit_distance_eq_lev]
    exact lev_replicate_not_lt 10001 'c' ['b'] 10000 (by norm_num)
  refine ⟨by simp, ?_⟩
  rw [wordgraph_find_word]
  refine findGo_no_improve (List.replicate 10001 'c') [['a'], ['b']] 1 0 10000 ?_
  intro j hj
  match j with
  | 0 => exact hge1
  | 1 => exact hge2

/-- Claim C8 (amended): `find_nearest` returns a non-sentinel id whenever
some dictionary word is at Levenshtein distance below the initial
best-distance bound 10000 from the query (with distances of 10000 or more
everywhere — only possible for queries of length at least 10000 — the
running best is never updated and the sentinel escapes). -/
theorem c8_find_nonsentinel (ws : List (List Char)) (q : List Char)
    (h : ∃ j, j < ws.length ∧ lev q (ws.getD j []) < 10000) :
    wordgraph_find_word ws q ≠ 0 := by
  have h2 : ∃ j, j < ws.length ∧ edit_distance q (ws.getD j []) < 10000 := by
    rcases h with ⟨j, hj, hlt⟩
    exact ⟨j, hj, by rw [edit_distance_eq_lev]; exact hlt⟩
  rcases findGo_improve q ws 1 0 10000 h2 with ⟨j0, _, heq, _, _, _⟩
  rw [wordgraph_find_word, heq]
  omega

/-- Witness for the amended C8: the query `a` against the one-word
dictionary `a`. -/
theorem c8_find_nonsentinel_witness :
    lev ['a'] (([['a']] : List (List Char)).getD 0 []) < 10000 ∧
      wordgraph_find_word [['a']] ['a'] ≠ 0 := by
  have hh : lev ['a'] (([['a']] : List (List Char)).getD 0 []) < 10000 := by
    rw [← edit_distance_eq_lev]
    decide
  exact ⟨hh, c8_find_nonsentinel [['a']] ['a'] ⟨0, by norm_num, hh⟩⟩

/-- Memory-level model of the varint do-while of `decode` (abbrase.c
lines 193-197) over an unbounded byte memory `mem`: returns the decoded
delta, the number of bytes consumed (`delta_ind`), and the log of indices
read.  The fuel argument only bounds the loop; it is never exhausted in the
runs considered. -/
def varintMem (mem : Nat → Nat) : Nat → Nat → Nat → Nat → Nat × Nat × List Nat
  | 0, _, _, acc => (acc, 0, [])
  | fuel + 1, ind, di, acc =>
    let val := mem ind
    let acc2 := acc + val % 32 * 2 ^ (5 * di)
    if val / 32 % 2 = 1 then
      let r := varintMem mem fuel (ind + 1) (di + 1) acc2
      (r.1, r.2.1 + 1, ind :: r.2.2)
    else (acc2, 1, [ind])

/-- Memory-level model of the decoder loop of `decode` (abbrase.c
lines 177-203), logging every index read from the encoded buffer: the
`while` condition reads `enc[enc_ind]` on every iteration, the varint
do-while reads `enc[enc_ind + delta_ind]`, and `enc_ind` advances by the
number of bytes consumed — in particular one PAST the byte that ended a
varint, even when that byte was the terminating NUL.  Returns the decoded
values and the read log. -/
def decodeMemGo (mem : Nat → Nat) : Nat → Nat → Int → Nat → List Int × List Nat
  | 0, _, _, _ => ([], [])
  | fuel + 1, ind, last, zrun =>
    if mem ind = 0 ∧ zrun = 0 then ([], [ind])
    else if zrun ≠ 0 then
      let r := decodeMemGo mem fuel ind (last + 1) (zrun - 1)
      ((last + 1) :: r.1, ind :: r.2)
    else if 0x60 ≤ mem ind then
      let r := decodeMemGo mem fuel (ind + 1) (last + 1) (mem ind % 32)
      ((last + 1) :: r.1, ind :: r.2)
    else
      let v := varintMem mem fuel ind 0 0
      let r := decodeMemGo mem fuel (ind + v.2.1) (last + (v.1 : Int) + 1) 0
      ((last + (v.1 : Int) + 1) :: r.1, ind :: (v.2.2 ++ r.2))

/-- The malformed two-byte buffer of claim C6: a single varint byte 0x25
with its continuation bit 0x20 set, immediately followed by the terminating
NUL at index 1 (all memory beyond the terminator reads as 0 here, which only
makes the decoder stop as early as possible). -/
def memC6 : Nat → Nat := fun i => if i = 0 then 0x25 else 0

/-- Claim C6 is violated by the code: on the buffer whose byte 0 is 0x25
(continuation bit set) and whose terminating NUL sits at index 1, the
decoder's loop condition reads index 2 — one byte PAST the terminating
marker — because the varint do-while consumes the NUL as its final chunk
and leaves `enc_ind` beyond it.  The read log of the memory-level decoder
contains index 2 while the terminator is at index 1. -/
theorem c6_decoder_reads_past_terminator :
    memC6 0 ≠ 0 ∧ memC6 1 = 0 ∧
      2 ∈ (decodeMemGo memC6 8 0 0 0).2 ∧
      (decodeMemGo memC6 8 0 0 0).1 = decode [0x25] := by
  refine ⟨by decide, by decide, by decide, by decide⟩

end Abbrase

